import Mathlib

/-!
Verification of the `linechunks` library (src/lib.rs): the `LineChunks`
iterator, which turns a byte source into line-aligned chunks, and the
`LineSplitParse` iterator, which splits one chunk into parsed lines.

The byte source (`Read` + `BufReader`) is modelled as a list of read
events: each `fill_buf` that reaches the underlying reader either yields a
block of bytes (an empty block meaning end of input) or fails with an I/O
error.  The `BufReader`'s internal buffer is the `buffer` field: bytes
already obtained from the source but not yet consumed.  Bytes are `Nat`s;
the line terminator `b'\n'` is `10`.

All loops of the source are compiled to structurally recursive functions
on an explicit fuel, with the fuel instantiated to a provably sufficient
bound, so every definition is executable by `decide`.
-/

set_option maxRecDepth 16384

namespace Linechunks

/-- Decidable equality for `Except`, needed to evaluate concrete runs. -/
instance {e a : Type} [DecidableEq e] [DecidableEq a] : DecidableEq (Except e a) := fun x y =>
  match x, y with
  | .ok u, .ok v =>
    if h : u = v then isTrue (by rw [h]) else isFalse (by simp [h])
  | .ok _, .error _ => isFalse (by simp)
  | .error _, .ok _ => isFalse (by simp)
  | .error u, .error v =>
    if h : u = v then isTrue (by rw [h]) else isFalse (by simp [h])

/-- One result of reading from the underlying source: a block of bytes
(`block []` = end of input, as in Rust where `read` returning `Ok(0)`
signals exhaustion) or an I/O error (identified by a numeric code). -/
inductive ReadEvent
  | block (data : List Nat)
  | fail (code : Nat)
deriving DecidableEq

/-- Errors yielded by the iterator: `tooLong n` models
`io::Error::new(ErrorKind::OutOfMemory, "Max line length exceeded: {n}")`
(note it carries only the length, never the accumulated bytes), and
`readErr c` models a propagated source error. -/
inductive ChunkError
  | tooLong (len : Nat)
  | readErr (code : Nat)
deriving DecidableEq

/-- State of `LineChunks<R>`: `source` and `buffer` together model
`buffer: BufReader<R>` (pending read results of the reader `R`, and the
`BufReader`'s unconsumed buffered bytes); `capacity` is the `BufReader`
capacity (`chunksize`); `finished`, `accum`, `max_line`, `min_chunk` are
the struct's fields of the same names. -/
structure LineChunks where
  source : List ReadEvent
  buffer : List Nat
  capacity : Nat
  finished : Bool
  accum : List Nat
  max_line : Nat
  min_chunk : Nat
deriving DecidableEq

/-- Model of `memchr::memchr(b, l)`: index of the first occurrence of `b` in `l`. -/
def memchr (b : Nat) : List Nat → Option Nat
  | [] => none
  | x :: xs => if x = b then some 0 else (memchr b xs).map (· + 1)

/-- Model of `memchr::memrchr(b, l)`: index of the last occurrence of `b` in `l`. -/
def memrchr (b : Nat) : List Nat → Option Nat
  | [] => none
  | x :: xs =>
    match memrchr b xs with
    | some i => some (i + 1)
    | none => if x = b then some 0 else none

/-- Model of `self.buffer.fill_buf()`: return the buffered bytes if any; otherwise
perform one read from the source.  Returns the possibly updated state and
either the freshly visible bytes (empty = end of input) or an I/O error. -/
def fillBuf (s : LineChunks) : LineChunks × Except Nat (List Nat) :=
  match s.buffer with
  | _ :: _ => (s, .ok s.buffer)
  | [] =>
    match s.source with
    | [] => (s, .ok [])
    | .block d :: evs => ({ s with source := evs, buffer := d }, .ok d)
    | .fail e :: evs => ({ s with source := evs }, .error e)

/-- Weight of one pending read event, for the loop-termination measure. -/
def eventWeight : ReadEvent → Nat
  | .block d => d.length + 1
  | .fail _ => 1

/-- Total weight of the pending source events. -/
def sourceWeight (evs : List ReadEvent) : Nat := (evs.map eventWeight).sum

/-- Termination measure of the `next` loop: every non-breaking iteration
consumes buffered bytes or pops a source event. -/
def pending (s : LineChunks) : Nat := s.buffer.length + sourceWeight s.source

/-- The loop body of `LineChunks::next` (src/lib.rs lines 61-136), as a
structurally recursive function on a fuel.  Mirrors the source: the
`finished` check, the `accum.len() > max_line` check, `fill_buf`, the EOF
branch returning the accumulator, and the `memrchr` split into the
"found" (emit or put back) and "not found" (grow the accumulator) arms. -/
def nextGo : Nat → LineChunks → LineChunks × Option (Except ChunkError (List Nat))
  | 0, s => (s, none)
  | fuel + 1, s =>
    if s.finished then (s, none)
    else if s.max_line < s.accum.length then
      ({ s with finished := true }, some (.error (.tooLong s.accum.length)))
    else
      match fillBuf s with
      | (s1, .error e) => ({ s1 with finished := true }, some (.error (.readErr e)))
      | (s1, .ok chunk) =>
        if chunk.isEmpty then
          ({ s1 with finished := true, accum := [] },
            if s1.accum.isEmpty then none else some (.ok s1.accum))
        else
          match memrchr 10 chunk with
          | some eol =>
            let buf := s1.accum ++ chunk.take (eol + 1)
            let s2 := { s1 with accum := [], buffer := chunk.drop (eol + 1) }
            if s1.min_chunk ≤ buf.length then (s2, some (.ok buf))
            else nextGo fuel { s2 with accum := buf }
          | none => nextGo fuel { s1 with accum := s1.accum ++ chunk, buffer := [] }

/-- Model of `LineChunks::next`: one call of the iterator, with sufficient fuel. -/
def next (s : LineChunks) : LineChunks × Option (Except ChunkError (List Nat)) :=
  nextGo (pending s + 1) s

/-- Collect the items of the iterator by calling `next` until it returns
`None`, with an explicit fuel. -/
def chunksGo : Nat → LineChunks → List (Except ChunkError (List Nat))
  | 0, _ => []
  | fuel + 1, s =>
    match next s with
    | (_, none) => []
    | (s', some item) => item :: chunksGo fuel s'

/-- The full item sequence of the iterator (`next` yields at most
`pending s + 1` items before returning `None`). -/
def chunks (s : LineChunks) : List (Except ChunkError (List Nat)) :=
  chunksGo (pending s + 2) s

/-- Split a byte list into successive pieces of `c` bytes (fuel form). -/
def chunksOfGo (c : Nat) : Nat → List Nat → List (List Nat)
  | 0, _ => []
  | fuel + 1, l => if l = [] then [] else l.take c :: chunksOfGo c fuel (l.drop c)

/-- Split a byte list into successive pieces of at most `c` bytes: the
read results an in-memory reader of this input produces for a `BufReader`
of capacity `c` (each `read` fills at most the `c`-byte buffer). -/
def chunksOf (c : Nat) (l : List Nat) : List (List Nat) := chunksOfGo c l.length l

/-- All bytes still to be delivered by the pending source events. -/
def eventsBytes : List ReadEvent → List Nat
  | [] => []
  | .block d :: evs => d ++ eventsBytes evs
  | .fail _ :: evs => eventsBytes evs

/-- All input bytes not yet emitted: accumulator, buffered bytes, and
bytes still in the source. -/
def remaining (s : LineChunks) : List Nat := s.accum ++ s.buffer ++ eventsBytes s.source

/-- A `LineChunks` over an in-memory input with explicit configuration
(as after `LineChunks::new` plus the `min_chunk`/`max_line` setters). -/
def ofInput (c minc maxl : Nat) (input : List Nat) : LineChunks :=
  { source := (chunksOf c input).map .block
    buffer := []
    capacity := c
    finished := false
    accum := []
    max_line := maxl
    min_chunk := minc }

/-- Model of `LineChunks::new(chunksize, read)` over an in-memory input: default
`min_chunk = chunksize * 3 / 4`, default `max_line = chunksize * 32`. -/
def LineChunks.new (c : Nat) (input : List Nat) : LineChunks :=
  ofInput c (c * 3 / 4) (c * 32) input

/-- Segments of a byte list delimited by the terminator `10`, in order,
including empty segments and the (possibly empty) final segment after the
last terminator.  Follows the spec's words: lines are the segments
between terminators, the final one possibly lacking a terminator. -/
def specSegments : List Nat → List (List Nat)
  | [] => [[]]
  | b :: r =>
    if b = 10 then [] :: specSegments r
    else
      match specSegments r with
      | [] => [[b]]
      | seg :: ss => (b :: seg) :: ss

/-- Lengths of the maximal terminator-free runs of a byte list. -/
def lineRuns (l : List Nat) : List Nat := (specSegments l).map List.length

/-- The spec's description of the Line Splitter output: the non-empty
lines of the chunk, in order, terminator stripped, blank segments and the
empty tail after a final terminator skipped. -/
def specNonEmptyLines (l : List Nat) : List (List Nat) :=
  (specSegments l).filter (fun seg => !seg.isEmpty)

/-- The loop body of `LineSplitParse::next` (src/lib.rs lines 163-183):
state is the cursor `lim` into `buf`; `f` is the parser.  Returns the new
cursor and the produced item, if any. -/
def lspNext {T : Type} (f : List Nat → T) : Nat → List Nat → Nat → Nat × Option T
  | 0, _, lim => (lim, none)
  | fuel + 1, buf, lim =>
    if lim = buf.length then (lim, none)
    else
      let eol := match memchr 10 (buf.drop lim) with
        | some e => lim + e
        | none => buf.length
      let newLim := match memchr 10 (buf.drop lim) with
        | some e => lim + e + 1
        | none => buf.length
      let slice := (buf.drop lim).take (eol - lim)
      if slice.isEmpty then lspNext f fuel buf newLim
      else (newLim, some (f slice))

/-- Collect the items of a `LineSplitParse` iterator from cursor `lim`. -/
def lspItems {T : Type} (f : List Nat → T) : Nat → List Nat → Nat → List T
  | 0, _, _ => []
  | fuel + 1, buf, lim =>
    match lspNext f (buf.length + 1) buf lim with
    | (_, none) => []
    | (lim', some t) => t :: lspItems f fuel buf lim'

/-- The full output of `LineSplitParse::new(buf, f)`. -/
def lineSplitParse {T : Type} (f : List Nat → T) (buf : List Nat) : List T :=
  lspItems f (buf.length + 1) buf 0

/-- Bytes of the `Ok` chunks of an item list, concatenated in order. -/
def okBytes (items : List (Except ChunkError (List Nat))) : List Nat :=
  (items.filterMap (fun i => match i with | .ok v => some v | .error _ => none)).flatten

/-- Lengths of the `Ok` chunks of an item list, in order. -/
def chunkLens (items : List (Except ChunkError (List Nat))) : List Nat :=
  items.filterMap (fun i => match i with | .ok v => some v.length | .error _ => none)

/-- Predicate: `t` occurs as a contiguous segment of `l`. -/
def IsSeg (t l : List Nat) : Prop := ∃ u v, u ++ t ++ v = l

/-- Every terminator-free contiguous segment of `l` is short enough that
the accumulator can absorb it (plus a pending short chunk of length
`< minc`) without crossing `maxl`. -/
def RunsOK (minc maxl : Nat) (l : List Nat) : Prop :=
  ∀ t, IsSeg t l → 10 ∉ t → t.length + minc ≤ maxl + 1 ∧ t.length ≤ maxl

/-- Recognizer for error items. -/
def isErrItem : Except ChunkError (List Nat) → Bool
  | .error _ => true
  | .ok _ => false

/-- The source never hands over more bytes per read than the buffer
capacity (true of any Rust `Read`, which fills a caller-provided buffer
of `capacity` bytes), and the buffered bytes fit the buffer. -/
def HCap (s : LineChunks) : Prop :=
  (∀ d, ReadEvent.block d ∈ s.source → d.length ≤ s.capacity) ∧
    s.buffer.length ≤ s.capacity

/-- Invariant of the lossless run: not finished; the source is a
well-formed in-memory one (non-empty blocks only); the accumulator
splits into a possibly-empty short terminator-ended prefix `A` (a
put-back chunk) followed by a terminator-free tail `B`; and every
terminator-free segment of the data still to be scanned obeys the run
bound. -/
def Inv (s : LineChunks) : Prop :=
  s.finished = false ∧
  (∀ e ∈ s.source, ∃ d, e = ReadEvent.block d ∧ d ≠ []) ∧
  ∃ A B, s.accum = A ++ B ∧ 10 ∉ B ∧
    (A = [] ∨ (A.getLast? = some 10 ∧ A.length < s.min_chunk)) ∧
    RunsOK s.min_chunk s.max_line (B ++ s.buffer ++ eventsBytes s.source)

/-- Outcome of one `next` call under the invariant: no error ever; either
a clean end with nothing remaining, or an `Ok` chunk that is exactly the
next slice of the remaining bytes, the invariant re-established with a
smaller measure unless the iterator finished with nothing left. -/
abbrev InvStep (s s' : LineChunks) (r : Option (Except ChunkError (List Nat))) : Prop :=
  (r = none ∧ remaining s = []) ∨
  (∃ v, r = some (.ok v) ∧ remaining s = v ++ remaining s' ∧
    s'.min_chunk = s.min_chunk ∧ s'.max_line = s.max_line ∧
    ((Inv s' ∧ pending s' < pending s) ∨ (s'.finished = true ∧ remaining s' = [])))

/-- Input for the C1 counterexample (chunk size 4, default configuration
`min_chunk = 3`, `max_line = 128`): `"ab\nx\nabc"` followed by 124 `x`
bytes and a final terminator.  Its longest terminator-free run is 127,
below `max_line`, yet the put-back of the short chunk `"x\n"` makes the
accumulator reach 129 bytes before the final terminator is seen. -/
def c1Input : List Nat := [97, 98, 10, 120, 10, 97, 98, 99] ++ List.replicate 124 120 ++ [10]

/-- Input for the C7 counterexample: a 131-byte run and a terminator. -/
def c7Input : List Nat := List.replicate 131 120 ++ [10]

/-- A source whose very first read fails with error code 7. -/
def errSrcState : LineChunks :=
  { source := [.fail 7], buffer := [], capacity := 4, finished := false, accum := [],
    max_line := 128, min_chunk := 3 }

/-- The state after `errSrcState` yields its error. -/
def errSrcStateAfter : LineChunks :=
  { source := [], buffer := [], capacity := 4, finished := true, accum := [],
    max_line := 128, min_chunk := 3 }

/-- The state after `ofInput 4 3 128 [97, 98, 10]` emits its only chunk. -/
def c10After : LineChunks :=
  { source := [], buffer := [], capacity := 4, finished := false, accum := [],
    max_line := 128, min_chunk := 3 }

section BasicLemmas

theorem memrchr_eq_some {b : Nat} : ∀ {l : List Nat} {i : Nat}, memrchr b l = some i →
    ∃ p q, l = p ++ b :: q ∧ p.length = i := by
  intro l
  induction l with
  | nil => intro i h; simp [memrchr] at h
  | cons x xs ih =>
    intro i h
    rw [memrchr] at h
    cases hm : memrchr b xs with
    | some j =>
      rw [hm] at h
      obtain ⟨p, q, hpq, hlen⟩ := ih hm
      cases h
      exact ⟨x :: p, q, by simp [hpq], by simp [hlen]⟩
    | none =>
      rw [hm] at h
      by_cases hx : x = b
      · subst hx
        simp at h
        exact ⟨[], xs, rfl, by simp [h]⟩
      · simp [hx] at h

theorem memrchr_eq_none {b : Nat} : ∀ {l : List Nat}, memrchr b l = none → b ∉ l := by
  intro l
  induction l with
  | nil => intro _; simp
  | cons x xs ih =>
    intro h
    rw [memrchr] at h
    cases hm : memrchr b xs with
    | some j => rw [hm] at h; simp at h
    | none =>
      rw [hm] at h
      by_cases hx : x = b
      · simp [hx] at h
      · simp [hx] at h ⊢
        exact ⟨fun he => hx he.symm, ih hm⟩

theorem memchr_eq_some {b : Nat} : ∀ {l : List Nat} {i : Nat}, memchr b l = some i →
    ∃ p q, l = p ++ b :: q ∧ p.length = i ∧ b ∉ p := by
  intro l
  induction l with
  | nil => intro i h; simp [memchr] at h
  | cons x xs ih =>
    intro i h
    rw [memchr] at h
    by_cases hx : x = b
    · subst hx
      simp at h
      exact ⟨[], xs, rfl, by simp [h], by simp⟩
    · simp [hx] at h
      obtain ⟨j, hj, hji⟩ := h
      obtain ⟨p, q, hpq, hlen, hnp⟩ := ih hj
      refine ⟨x :: p, q, by simp [hpq], by simp [hlen, hji], ?_⟩
      simp [hnp]
      exact fun he => hx he.symm

theorem memchr_eq_none {b : Nat} : ∀ {l : List Nat}, memchr b l = none → b ∉ l := by
  intro l
  induction l with
  | nil => intro _; simp
  | cons x xs ih =>
    intro h
    rw [memchr] at h
    by_cases hx : x = b
    · simp [hx] at h
    · simp [hx] at h ⊢
      exact ⟨fun he => hx he.symm, ih h⟩

theorem memrchr_of_not_mem {b : Nat} {l : List Nat} (h : b ∉ l) : memrchr b l = none := by
  cases hm : memrchr b l with
  | none => rfl
  | some i =>
    obtain ⟨p, q, hpq, -⟩ := memrchr_eq_some hm
    exact absurd (by simp [hpq]) h

theorem chunksOfGo_flatten {c : Nat} (hc : 0 < c) :
    ∀ fuel l, l.length ≤ fuel → (chunksOfGo c fuel l).flatten = l := by
  intro fuel
  induction fuel with
  | zero => intro l hl; simp at hl; simp [chunksOfGo, hl]
  | succ n ih =>
    intro l hl
    rw [chunksOfGo]
    by_cases h : l = []
    · simp [h]
    · have hlen : (l.drop c).length ≤ n := by
        have : 0 < l.length := List.length_pos.mpr h
        simp only [List.length_drop]
        omega
      simp [h, ih (l.drop c) hlen]

theorem chunksOf_flatten {c : Nat} (hc : 0 < c) (l : List Nat) :
    (chunksOf c l).flatten = l :=
  chunksOfGo_flatten hc l.length l le_rfl

theorem chunksOfGo_ne_nil {c : Nat} (hc : 0 < c) :
    ∀ fuel l d, d ∈ chunksOfGo c fuel l → d ≠ [] := by
  intro fuel
  induction fuel with
  | zero => intro l d hd; simp [chunksOfGo] at hd
  | succ n ih =>
    intro l d hd
    rw [chunksOfGo] at hd
    by_cases h : l = []
    · simp [h] at hd
    · simp only [if_neg h, List.mem_cons] at hd
      rcases hd with hd | hd
      · subst hd
        have : 0 < l.length := List.length_pos.mpr h
        simp only [ne_eq, ← List.length_eq_zero]
        simp only [List.length_take]
        omega
      · exact ih _ _ hd

theorem chunksOfGo_len_le {c : Nat} :
    ∀ fuel l d, d ∈ chunksOfGo c fuel l → d.length ≤ c := by
  intro fuel
  induction fuel with
  | zero => intro l d hd; simp [chunksOfGo] at hd
  | succ n ih =>
    intro l d hd
    rw [chunksOfGo] at hd
    by_cases h : l = []
    · simp [h] at hd
    · simp only [if_neg h, List.mem_cons] at hd
      rcases hd with hd | hd
      · subst hd; simp
      · exact ih _ _ hd

theorem eventsBytes_map_block (ds : List (List Nat)) :
    eventsBytes (ds.map .block) = ds.flatten := by
  induction ds with
  | nil => rfl
  | cons d ds ih => simp [eventsBytes, ih]

end BasicLemmas

section SegmentLemmas

theorem specSegments_ne_nil (l : List Nat) : specSegments l ≠ [] := by
  cases l with
  | nil => simp [specSegments]
  | cons b r =>
    rw [specSegments]
    by_cases hb : b = 10
    · simp [hb]
    · simp only [if_neg hb]
      cases specSegments r <;> simp

theorem specSegments_no_term : ∀ {l : List Nat}, 10 ∉ l → specSegments l = [l] := by
  intro l
  induction l with
  | nil => intro _; rfl
  | cons b r ih =>
    intro h
    simp only [List.mem_cons] at h
    push_neg at h
    rw [specSegments, if_neg (fun he => h.1 he.symm), ih h.2]

theorem specSegments_append : ∀ {p : List Nat} (q : List Nat), 10 ∉ p →
    specSegments (p ++ 10 :: q) = p :: specSegments q := by
  intro p
  induction p with
  | nil => intro q _; simp [specSegments]
  | cons b r ih =>
    intro q h
    simp only [List.mem_cons] at h
    push_neg at h
    rw [List.cons_append, specSegments, if_neg (fun he => h.1 he.symm), ih q h.2]

/-- A terminator-free prefix of `l` is no longer than `l`'s first run. -/
theorem prefix_le_head_run : ∀ (l t : List Nat), (∃ v, t ++ v = l) → 10 ∉ t →
    t.length ≤ ((specSegments l).headD []).length := by
  intro l
  induction l with
  | nil =>
    intro t ht _
    obtain ⟨v, hv⟩ := ht
    have : t = [] := by
      cases t with
      | nil => rfl
      | cons a b => simp at hv
    simp [this]
  | cons b r ih =>
    intro t ht hnt
    obtain ⟨v, hv⟩ := ht
    cases t with
    | nil => simp
    | cons a t' =>
      simp only [List.cons_append, List.cons.injEq] at hv
      obtain ⟨hab, hv⟩ := hv
      subst hab
      simp only [List.mem_cons] at hnt
      push_neg at hnt
      rw [specSegments, if_neg (fun he => hnt.1 he.symm)]
      have h2 := ih t' ⟨v, hv⟩ hnt.2
      cases hs : specSegments r with
      | nil => exact absurd hs (specSegments_ne_nil r)
      | cons s ss =>
        rw [hs] at h2
        simp only [List.headD_cons] at h2
        show (a :: t').length ≤ (((a :: s) :: ss).headD []).length
        simp only [List.headD_cons, List.length_cons]
        omega

/-- Every terminator-free contiguous segment of `l` fits inside one of
`l`'s maximal runs. -/
theorem seg_le_some_run : ∀ (l t : List Nat), IsSeg t l → 10 ∉ t →
    ∃ r ∈ lineRuns l, t.length ≤ r := by
  intro l
  induction l with
  | nil =>
    intro t ht _
    obtain ⟨u, v, huv⟩ := ht
    have hu : u = [] ∧ t = [] := by
      constructor
      · cases u with
        | nil => rfl
        | cons a b => simp at huv
      · cases u with
        | nil =>
          cases t with
          | nil => rfl
          | cons a b => simp at huv
        | cons a b => simp at huv
    refine ⟨0, by simp [lineRuns, specSegments], by simp [hu.2]⟩
  | cons b r ih =>
    intro t ht hnt
    obtain ⟨u, v, huv⟩ := ht
    cases u with
    | cons a u' =>
      simp only [List.cons_append, List.cons.injEq] at huv
      obtain ⟨-, huv⟩ := huv
      obtain ⟨rr, hrr, hle⟩ := ih t ⟨u', v, huv⟩ hnt
      by_cases hb : b = 10
      · subst hb
        refine ⟨rr, ?_, hle⟩
        simp only [lineRuns, specSegments, if_pos rfl, List.map_cons, List.mem_cons]
        right
        exact hrr
      · -- first run of b :: r extends the first run of r
        simp only [lineRuns] at hrr ⊢
        rw [specSegments, if_neg hb]
        cases hs : specSegments r with
        | nil => exact absurd hs (specSegments_ne_nil r)
        | cons s ss =>
          rw [hs] at hrr
          simp only [List.map_cons, List.mem_cons] at hrr ⊢
          rcases hrr with hrr | hrr
          · exact ⟨(b :: s).length, Or.inl rfl, by simp at hrr ⊢; omega⟩
          · exact ⟨rr, Or.inr hrr, hle⟩
    | nil =>
      simp only [List.nil_append] at huv
      cases t with
      | nil =>
        refine ⟨((specSegments (b :: r)).headD []).length, ?_, by simp⟩
        simp only [lineRuns]
        cases hs : specSegments (b :: r) with
        | nil => exact absurd hs (specSegments_ne_nil _)
        | cons s ss => simp
      | cons a t' =>
        simp only [List.cons_append, List.cons.injEq] at huv
        obtain ⟨hab, huv⟩ := huv
        subst hab
        -- t is a prefix of a :: r
        have hpre : ∃ w, (a :: t') ++ w = a :: r := ⟨v, by simp [huv]⟩
        have hle := prefix_le_head_run (a :: r) (a :: t') hpre hnt
        refine ⟨((specSegments (a :: r)).headD []).length, ?_, hle⟩
        simp only [lineRuns]
        cases hs : specSegments (a :: r) with
        | nil => exact absurd hs (specSegments_ne_nil _)
        | cons s ss => simp [hs]

/-- Bounds on all maximal runs give the `RunsOK` segment bound. -/
theorem runsOK_of_lineRuns {minc maxl : Nat} {l : List Nat}
    (h : ∀ r ∈ lineRuns l, r + minc ≤ maxl + 1 ∧ r ≤ maxl) : RunsOK minc maxl l := by
  intro t ht hnt
  obtain ⟨r, hr, hle⟩ := seg_le_some_run l t ht hnt
  have := h r hr
  omega

/-- The bound `RunsOK` passes to any contiguous segment. -/
theorem runsOK_of_seg {minc maxl : Nat} {l l' : List Nat}
    (h : RunsOK minc maxl l) (hs : IsSeg l' l) : RunsOK minc maxl l' := by
  intro t ht hnt
  obtain ⟨u, v, huv⟩ := ht
  obtain ⟨u', v', huv'⟩ := hs
  exact h t ⟨u' ++ u, v ++ v', by simp [← huv', ← huv]⟩ hnt

end SegmentLemmas

section ReductionLemmas

theorem fillBuf_cases (s : LineChunks) :
    (s.buffer ≠ [] ∧ fillBuf s = (s, .ok s.buffer)) ∨
    (s.buffer = [] ∧ s.source = [] ∧ fillBuf s = (s, .ok [])) ∨
    (∃ d evs, s.buffer = [] ∧ s.source = .block d :: evs ∧
      fillBuf s = ({ s with source := evs, buffer := d }, .ok d)) ∨
    (∃ e evs, s.buffer = [] ∧ s.source = .fail e :: evs ∧
      fillBuf s = ({ s with source := evs }, .error e)) := by
  rcases hb : s.buffer with - | ⟨x, xs⟩
  · rcases hsrc : s.source with - | ⟨ev, evs⟩
    · exact Or.inr (Or.inl ⟨rfl, rfl, by rw [fillBuf, hb, hsrc]⟩)
    · cases ev with
      | block d =>
        exact Or.inr (Or.inr (Or.inl ⟨d, evs, rfl, rfl, by rw [fillBuf, hb, hsrc]⟩))
      | fail e =>
        exact Or.inr (Or.inr (Or.inr ⟨e, evs, rfl, rfl, by rw [fillBuf, hb, hsrc]⟩))
  · refine Or.inl ⟨by simp [hb], ?_⟩
    rw [fillBuf, hb]

theorem fillBuf_ok {s s1 : LineChunks} {chunk : List Nat}
    (h : fillBuf s = (s1, .ok chunk)) :
    s1.accum = s.accum ∧ s1.finished = s.finished ∧ s1.min_chunk = s.min_chunk ∧
    s1.max_line = s.max_line ∧ s1.capacity = s.capacity ∧ s1.buffer = chunk ∧
    remaining s1 = remaining s ∧ pending s1 ≤ pending s := by
  rcases fillBuf_cases s with ⟨hb, hfb⟩ | ⟨hb, hsrc, hfb⟩ | ⟨d, evs, hb, hsrc, hfb⟩ |
    ⟨e, evs, hb, hsrc, hfb⟩ <;> rw [hfb] at h <;>
    obtain ⟨rfl, h2⟩ := Prod.mk.injEq .. ▸ h
  · cases h2; exact ⟨rfl, rfl, rfl, rfl, rfl, rfl, rfl, le_rfl⟩
  · cases h2
    exact ⟨rfl, rfl, rfl, rfl, rfl, hb, rfl, le_rfl⟩
  · cases h2
    refine ⟨rfl, rfl, rfl, rfl, rfl, rfl, ?_, ?_⟩
    · simp [remaining, hb, hsrc, eventsBytes]
    · simp [pending, hb, hsrc, sourceWeight, eventWeight]
  · cases h2

theorem fillBuf_err {s s1 : LineChunks} {e : Nat}
    (h : fillBuf s = (s1, .error e)) :
    s1.accum = s.accum ∧ s1.finished = s.finished ∧ s1.min_chunk = s.min_chunk ∧
    s1.max_line = s.max_line ∧ s1.capacity = s.capacity ∧ s1.buffer = s.buffer := by
  rcases fillBuf_cases s with ⟨hb, hfb⟩ | ⟨hb, hsrc, hfb⟩ | ⟨d, evs, hb, hsrc, hfb⟩ |
    ⟨e', evs, hb, hsrc, hfb⟩ <;> rw [hfb] at h <;>
    obtain ⟨rfl, h2⟩ := Prod.mk.injEq .. ▸ h
  · cases h2
  · cases h2
  · cases h2
  · exact ⟨rfl, rfl, rfl, rfl, rfl, rfl⟩

theorem nextGo_finished {fuel : Nat} {s : LineChunks} (h : s.finished = true) :
    nextGo (fuel + 1) s = (s, none) := by
  rw [nextGo, if_pos h]

theorem next_finished {s : LineChunks} (h : s.finished = true) : next s = (s, none) :=
  nextGo_finished h

theorem nextGo_tooLong {fuel : Nat} {s : LineChunks} (hfin : s.finished = false)
    (hmax : s.max_line < s.accum.length) :
    nextGo (fuel + 1) s =
      ({ s with finished := true }, some (.error (.tooLong s.accum.length))) := by
  rw [nextGo, if_neg (by simp [hfin]), if_pos hmax]

theorem nextGo_readErr {fuel : Nat} {s s1 : LineChunks} {e : Nat}
    (hfin : s.finished = false) (hmax : ¬ s.max_line < s.accum.length)
    (hfb : fillBuf s = (s1, .error e)) :
    nextGo (fuel + 1) s = ({ s1 with finished := true }, some (.error (.readErr e))) := by
  rw [nextGo, if_neg (by simp [hfin]), if_neg hmax, hfb]

theorem nextGo_eof {fuel : Nat} {s s1 : LineChunks}
    (hfin : s.finished = false) (hmax : ¬ s.max_line < s.accum.length)
    (hfb : fillBuf s = (s1, .ok [])) :
    nextGo (fuel + 1) s = ({ s1 with finished := true, accum := [] },
      if s1.accum.isEmpty then none else some (.ok s1.accum)) := by
  rw [nextGo, if_neg (by simp [hfin]), if_neg hmax, hfb]
  rfl

theorem nextGo_emit {fuel : Nat} {s s1 : LineChunks} {chunk : List Nat} {eol : Nat}
    (hfin : s.finished = false) (hmax : ¬ s.max_line < s.accum.length)
    (hfb : fillBuf s = (s1, .ok chunk)) (hch : chunk ≠ [])
    (hmr : memrchr 10 chunk = some eol)
    (hbig : s1.min_chunk ≤ (s1.accum ++ chunk.take (eol + 1)).length) :
    nextGo (fuel + 1) s = ({ s1 with accum := [], buffer := chunk.drop (eol + 1) },
      some (.ok (s1.accum ++ chunk.take (eol + 1)))) := by
  have hch' : chunk.isEmpty = false := by simp [hch]
  rw [nextGo, if_neg (by simp [hfin]), if_neg hmax, hfb]
  simp [hch', hmr, hbig]
  intro hcon
  exfalso
  simp only [List.length_append, List.length_take] at hbig
  omega

theorem nextGo_putback {fuel : Nat} {s s1 : LineChunks} {chunk : List Nat} {eol : Nat}
    (hfin : s.finished = false) (hmax : ¬ s.max_line < s.accum.length)
    (hfb : fillBuf s = (s1, .ok chunk)) (hch : chunk ≠ [])
    (hmr : memrchr 10 chunk = some eol)
    (hsmall : ¬ s1.min_chunk ≤ (s1.accum ++ chunk.take (eol + 1)).length) :
    nextGo (fuel + 1) s = nextGo fuel
      { s1 with accum := s1.accum ++ chunk.take (eol + 1), buffer := chunk.drop (eol + 1) } := by
  have hch' : chunk.isEmpty = false := by simp [hch]
  rw [nextGo, if_neg (by simp [hfin]), if_neg hmax, hfb]
  simp [hch', hmr, hsmall]
  intro hcon
  exfalso
  simp only [List.length_append, List.length_take] at hsmall
  omega

theorem nextGo_grow {fuel : Nat} {s s1 : LineChunks} {chunk : List Nat}
    (hfin : s.finished = false) (hmax : ¬ s.max_line < s.accum.length)
    (hfb : fillBuf s = (s1, .ok chunk)) (hch : chunk ≠ [])
    (hmr : memrchr 10 chunk = none) :
    nextGo (fuel + 1) s = nextGo fuel { s1 with accum := s1.accum ++ chunk, buffer := [] } := by
  have hch' : chunk.isEmpty = false := by simp [hch]
  rw [nextGo, if_neg (by simp [hfin]), if_neg hmax, hfb]
  simp [hch', hmr]

end ReductionLemmas

section ShapeLemmas

theorem split_take_drop (b : Nat) : ∀ (p q : List Nat),
    (p ++ b :: q).take (p.length + 1) = p ++ [b] ∧ (p ++ b :: q).drop (p.length + 1) = q := by
  intro p
  induction p with
  | nil => intro q; simp
  | cons x xs ih =>
    intro q
    simp only [List.cons_append, List.length_cons, List.take_succ_cons, List.drop_succ_cons]
    exact ⟨by rw [(ih q).1], (ih q).2⟩

/-- Every result of the `next` loop: configuration fields are preserved,
an error item leaves the iterator finished, and an `Ok` chunk is
non-empty and either terminal (`finished` set) or terminator-ended and at
least `min_chunk` long. -/
theorem nextGo_shape : ∀ (fuel : Nat) (s s' : LineChunks)
    (r : Option (Except ChunkError (List Nat))), nextGo fuel s = (s', r) →
    s'.min_chunk = s.min_chunk ∧ s'.max_line = s.max_line ∧ s'.capacity = s.capacity ∧
    (∀ e, r = some (.error e) → s'.finished = true) ∧
    (∀ v, r = some (.ok v) → v ≠ [] ∧
      (s'.finished = true ∨ (v.getLast? = some 10 ∧ s.min_chunk ≤ v.length))) := by
  intro fuel
  induction fuel with
  | zero =>
    intro s s' r h
    rw [nextGo, Prod.mk.injEq] at h
    obtain ⟨rfl, rfl⟩ := h
    exact ⟨rfl, rfl, rfl, by simp, by simp⟩
  | succ fuel ih =>
    intro s s' r h
    by_cases hfin : s.finished = true
    · rw [nextGo_finished hfin, Prod.mk.injEq] at h
      obtain ⟨rfl, rfl⟩ := h
      exact ⟨rfl, rfl, rfl, by simp, by simp⟩
    replace hfin : s.finished = false := by simpa using hfin
    by_cases hmax : s.max_line < s.accum.length
    · rw [nextGo_tooLong hfin hmax, Prod.mk.injEq] at h
      obtain ⟨rfl, rfl⟩ := h
      exact ⟨rfl, rfl, rfl, fun e _ => rfl, by simp⟩
    rcases hfb : fillBuf s with ⟨s1, res⟩
    cases res with
    | error e =>
      rw [nextGo_readErr hfin hmax hfb, Prod.mk.injEq] at h
      obtain ⟨rfl, rfl⟩ := h
      obtain ⟨-, -, hmc, hml, hcap, -⟩ := fillBuf_err hfb
      exact ⟨hmc, hml, hcap, fun e _ => rfl, by simp⟩
    | ok chunk =>
      obtain ⟨hacc, -, hmc, hml, hcap, hbuf, -, -⟩ := fillBuf_ok hfb
      by_cases hch : chunk = []
      · subst hch
        rw [nextGo_eof hfin hmax hfb, Prod.mk.injEq] at h
        obtain ⟨rfl, h2⟩ := h
        refine ⟨hmc, hml, hcap, ?_, ?_⟩
        · intro e he
          rfl
        · intro v hv
          rw [← h2] at hv
          by_cases hae : s1.accum.isEmpty
          · rw [if_pos hae] at hv; simp at hv
          · rw [if_neg hae] at hv
            simp only [Option.some.injEq, Except.ok.injEq] at hv
            subst hv
            exact ⟨by simpa using hae, Or.inl rfl⟩
      · cases hmr : memrchr 10 chunk with
        | some eol =>
          obtain ⟨p, q, hpq, hlen⟩ := memrchr_eq_some hmr
          by_cases hbig : s1.min_chunk ≤ (s1.accum ++ chunk.take (eol + 1)).length
          · rw [nextGo_emit hfin hmax hfb hch hmr hbig, Prod.mk.injEq] at h
            obtain ⟨rfl, rfl⟩ := h
            refine ⟨hmc, hml, hcap, by simp, ?_⟩
            intro v hv
            simp only [Option.some.injEq, Except.ok.injEq] at hv
            subst hv
            have htake : chunk.take (eol + 1) = p ++ [10] := by
              rw [hpq, ← hlen]; exact (split_take_drop 10 p q).1
            constructor
            · simp [htake]
            · refine Or.inr ⟨?_, by rw [hmc] at hbig; exact hbig⟩
              rw [htake, ← List.append_assoc]
              exact List.getLast?_concat _
          · rw [nextGo_putback hfin hmax hfb hch hmr hbig] at h
            obtain ⟨h1, h2, h3, h4, h5⟩ := ih _ s' r h
            refine ⟨by rw [h1]; exact hmc, by rw [h2]; exact hml, by rw [h3]; exact hcap,
              h4, ?_⟩
            intro v hv
            obtain ⟨hne, hrest⟩ := h5 v hv
            refine ⟨hne, ?_⟩
            rcases hrest with hfi | ⟨hl, hm⟩
            · exact Or.inl hfi
            · exact Or.inr ⟨hl, by rw [← hmc]; exact hm⟩
        | none =>
          rw [nextGo_grow hfin hmax hfb hch hmr] at h
          obtain ⟨h1, h2, h3, h4, h5⟩ := ih _ s' r h
          refine ⟨by rw [h1]; exact hmc, by rw [h2]; exact hml, by rw [h3]; exact hcap,
            h4, ?_⟩
          intro v hv
          obtain ⟨hne, hrest⟩ := h5 v hv
          refine ⟨hne, ?_⟩
          rcases hrest with hfi | ⟨hl, hm⟩
          · exact Or.inl hfi
          · exact Or.inr ⟨hl, by rw [← hmc]; exact hm⟩

theorem chunksGo_finished {s : LineChunks} (h : s.finished = true) :
    ∀ fuel, chunksGo fuel s = [] := by
  intro fuel
  cases fuel with
  | zero => rfl
  | succ n => rw [chunksGo, next_finished h]

/-- Item-level consequences over the collected sequence: every `Ok` chunk
is non-empty, and any `Ok` chunk that is not the final item ends with the
terminator and has at least `min_chunk` bytes. -/
theorem chunksGo_items : ∀ (fuel : Nat) (s : LineChunks) (i : Nat) (v : List Nat),
    (chunksGo fuel s)[i]? = some (.ok v) →
    v ≠ [] ∧ (i = (chunksGo fuel s).length - 1 ∨
      (v.getLast? = some 10 ∧ s.min_chunk ≤ v.length)) := by
  intro fuel
  induction fuel with
  | zero => intro s i v h; simp [chunksGo] at h
  | succ fuel ih =>
    intro s i v h
    rcases hn : next s with ⟨s', r⟩
    cases r with
    | none =>
      rw [show chunksGo (fuel + 1) s = [] from by rw [chunksGo, hn]] at h
      simp at h
    | some item =>
      have hcg : chunksGo (fuel + 1) s = item :: chunksGo fuel s' := by rw [chunksGo, hn]
      rw [hcg] at h ⊢
      obtain ⟨hmc, -, -, herr, hok⟩ := nextGo_shape _ s s' (some item) hn
      cases i with
      | zero =>
        simp only [List.getElem?_cons_zero, Option.some.injEq] at h
        subst h
        obtain ⟨hne, hrest⟩ := hok v rfl
        refine ⟨hne, ?_⟩
        rcases hrest with hfi | hgood
        · left
          rw [chunksGo_finished hfi fuel]
          rfl
        · right
          exact hgood
      | succ i =>
        simp only [List.getElem?_cons_succ] at h
        obtain ⟨hne, hrest⟩ := ih s' i v h
        refine ⟨hne, ?_⟩
        rcases hrest with hlast | ⟨hl, hm⟩
        · left
          have hlt : i < (chunksGo fuel s').length := (List.getElem?_eq_some.mp h).1
          simp only [List.length_cons]
          omega
        · right
          exact ⟨hl, by rw [← hmc]; exact hm⟩

theorem chunksGo_errCount : ∀ (fuel : Nat) (s : LineChunks),
    (chunksGo fuel s).countP isErrItem ≤ 1 := by
  intro fuel
  induction fuel with
  | zero => intro s; simp [chunksGo]
  | succ fuel ih =>
    intro s
    rcases hn : next s with ⟨s', r⟩
    cases r with
    | none =>
      rw [show chunksGo (fuel + 1) s = [] from by rw [chunksGo, hn]]
      simp
    | some item =>
      rw [show chunksGo (fuel + 1) s = item :: chunksGo fuel s' from by rw [chunksGo, hn]]
      obtain ⟨-, -, -, herr, -⟩ := nextGo_shape _ s s' (some item) hn
      cases item with
      | ok v =>
        rw [List.countP_cons]
        have := ih s'
        simp [isErrItem]
        omega
      | error e =>
        rw [chunksGo_finished (herr e rfl) fuel]
        simp [List.countP_cons, isErrItem]

end ShapeLemmas

section CapLemmas

theorem fillBuf_cap {s s1 : LineChunks} {chunk : List Nat}
    (hfb : fillBuf s = (s1, .ok chunk)) (hc : HCap s) :
    HCap s1 ∧ chunk.length ≤ s.capacity := by
  rcases fillBuf_cases s with ⟨hb, hfb'⟩ | ⟨hb, hsrc, hfb'⟩ | ⟨d, evs, hb, hsrc, hfb'⟩ |
    ⟨e, evs, hb, hsrc, hfb'⟩ <;> rw [hfb'] at hfb <;>
    obtain ⟨rfl, h2⟩ := Prod.mk.injEq .. ▸ hfb
  · cases h2; exact ⟨hc, hc.2⟩
  · cases h2; exact ⟨hc, by simp⟩
  · injection h2 with hdc
    rw [← hdc]
    have hd : d.length ≤ s.capacity := hc.1 d (by rw [hsrc]; exact List.mem_cons_self _ _)
    refine ⟨⟨?_, hd⟩, hd⟩
    intro d' hd'
    exact hc.1 d' (by rw [hsrc]; exact List.mem_cons_of_mem _ hd')
  · cases h2

theorem fillBuf_err_cap {s s1 : LineChunks} {e : Nat}
    (hfb : fillBuf s = (s1, .error e)) (hc : HCap s) : HCap s1 := by
  rcases fillBuf_cases s with ⟨hb, hfb'⟩ | ⟨hb, hsrc, hfb'⟩ | ⟨d, evs, hb, hsrc, hfb'⟩ |
    ⟨e', evs, hb, hsrc, hfb'⟩ <;> rw [hfb'] at hfb <;>
    obtain ⟨rfl, h2⟩ := Prod.mk.injEq .. ▸ hfb
  · cases h2
  · cases h2
  · cases h2
  · refine ⟨?_, hc.2⟩
    intro d' hd'
    exact hc.1 d' (by rw [hsrc]; exact List.mem_cons_of_mem _ hd')

/-- Capacity invariant of the `next` loop: the accumulator never exceeds
`max_line + capacity` (it can pass `max_line` by at most one buffer
fill), and every emitted chunk is bounded the same way. -/
theorem nextGo_cap : ∀ (fuel : Nat) (s s' : LineChunks)
    (r : Option (Except ChunkError (List Nat))), HCap s →
    s.accum.length ≤ s.max_line + s.capacity → nextGo fuel s = (s', r) →
    HCap s' ∧ s'.accum.length ≤ s.max_line + s.capacity ∧
    (∀ v, r = some (.ok v) → v.length ≤ s.max_line + s.capacity) := by
  intro fuel
  induction fuel with
  | zero =>
    intro s s' r hc ha h
    rw [nextGo, Prod.mk.injEq] at h
    obtain ⟨rfl, rfl⟩ := h
    exact ⟨hc, ha, by simp⟩
  | succ fuel ih =>
    intro s s' r hc ha h
    by_cases hfin : s.finished = true
    · rw [nextGo_finished hfin, Prod.mk.injEq] at h
      obtain ⟨rfl, rfl⟩ := h
      exact ⟨hc, ha, by simp⟩
    replace hfin : s.finished = false := by simpa using hfin
    by_cases hmax : s.max_line < s.accum.length
    · rw [nextGo_tooLong hfin hmax, Prod.mk.injEq] at h
      obtain ⟨rfl, rfl⟩ := h
      exact ⟨hc, ha, by simp⟩
    rcases hfb : fillBuf s with ⟨s1, res⟩
    cases res with
    | error e =>
      rw [nextGo_readErr hfin hmax hfb, Prod.mk.injEq] at h
      obtain ⟨rfl, rfl⟩ := h
      obtain ⟨hacc, -, -, -, -, -⟩ := fillBuf_err hfb
      have := fillBuf_err_cap hfb hc
      exact ⟨this, by rw [hacc]; exact ha, by simp⟩
    | ok chunk =>
      obtain ⟨hacc, -, hmc, hml, hcap, hbuf, -, -⟩ := fillBuf_ok hfb
      obtain ⟨hc1, hchlen⟩ := fillBuf_cap hfb hc
      by_cases hch : chunk = []
      · subst hch
        rw [nextGo_eof hfin hmax hfb, Prod.mk.injEq] at h
        obtain ⟨rfl, h2⟩ := h
        refine ⟨⟨hc1.1, by simpa using hc1.2⟩, by simp, ?_⟩
        intro v hv
        rw [← h2] at hv
        by_cases hae : s1.accum.isEmpty
        · rw [if_pos hae] at hv; simp at hv
        · rw [if_neg hae] at hv
          simp only [Option.some.injEq, Except.ok.injEq] at hv
          subst hv
          rw [hacc]
          omega
      · cases hmr : memrchr 10 chunk with
        | some eol =>
          have hvlen : (s1.accum ++ chunk.take (eol + 1)).length ≤ s.max_line + s.capacity := by
            rw [List.length_append, hacc, List.length_take]
            have : min (eol + 1) chunk.length ≤ chunk.length := min_le_right _ _
            omega
          have hdrop : (chunk.drop (eol + 1)).length ≤ s.capacity := by
            rw [List.length_drop]
            omega
          by_cases hbig : s1.min_chunk ≤ (s1.accum ++ chunk.take (eol + 1)).length
          · rw [nextGo_emit hfin hmax hfb hch hmr hbig, Prod.mk.injEq] at h
            obtain ⟨rfl, rfl⟩ := h
            refine ⟨⟨hc1.1, by simpa [hcap] using hdrop⟩, by simp, ?_⟩
            intro v hv
            simp only [Option.some.injEq, Except.ok.injEq] at hv
            subst hv
            exact hvlen
          · rw [nextGo_putback hfin hmax hfb hch hmr hbig] at h
            have h3c : HCap { s1 with accum := s1.accum ++ chunk.take (eol + 1), buffer := chunk.drop (eol + 1) } := ⟨hc1.1, by simpa [hcap] using hdrop⟩
            have h3a := ih _ s' r h3c (by simpa [hml, hcap] using hvlen) h
            refine ⟨h3a.1, ?_, ?_⟩
            · have := h3a.2.1
              simpa [hml, hcap] using this
            · intro v hv
              have := h3a.2.2 v hv
              simpa [hml, hcap] using this
        | none =>
          rw [nextGo_grow hfin hmax hfb hch hmr] at h
          have h3c : HCap { s1 with accum := s1.accum ++ chunk, buffer := [] } :=
            ⟨hc1.1, by simp⟩
          have h3len : (s1.accum ++ chunk).length ≤ s.max_line + s.capacity := by
            rw [List.length_append, hacc]
            omega
          have h3a := ih _ s' r h3c (by simpa [hml, hcap] using h3len) h
          refine ⟨h3a.1, ?_, ?_⟩
          · have := h3a.2.1
            simpa [hml, hcap] using this
          · intro v hv
            have := h3a.2.2 v hv
            simpa [hml, hcap] using this

/-- Chunk-size bound over the whole collected sequence. -/
theorem chunksGo_cap : ∀ (fuel : Nat) (s : LineChunks), HCap s →
    s.accum.length ≤ s.max_line + s.capacity →
    ∀ v, (Except.ok v : Except ChunkError (List Nat)) ∈ chunksGo fuel s →
    v.length ≤ s.max_line + s.capacity := by
  intro fuel
  induction fuel with
  | zero => intro s _ _ v hv; simp [chunksGo] at hv
  | succ fuel ih =>
    intro s hc ha v hv
    rcases hn : next s with ⟨s', r⟩
    cases r with
    | none =>
      rw [show chunksGo (fuel + 1) s = [] from by rw [chunksGo, hn]] at hv
      simp at hv
    | some item =>
      rw [show chunksGo (fuel + 1) s = item :: chunksGo fuel s' from by rw [chunksGo, hn]] at hv
      obtain ⟨-, hml, hcap, -, -⟩ := nextGo_shape _ s s' (some item) hn
      obtain ⟨hc', ha', hok⟩ := nextGo_cap _ s s' (some item) hc ha hn
      rcases List.mem_cons.mp hv with hv | hv
      · exact hok v (by rw [← hv])
      · have := ih s' hc' (by rw [hml, hcap]; exact ha') v hv
        rw [hml, hcap] at this
        exact this

end CapLemmas

section NoTermLemmas

/-- With a well-formed in-memory source, no terminator anywhere in the
data, and more remaining data than `max_line`, the loop necessarily ends
in a single line-too-long error whose reported length exceeds `max_line`. -/
theorem nextGo_noTerm : ∀ (fuel : Nat) (s : LineChunks),
    s.finished = false →
    (∀ e ∈ s.source, ∃ d, e = ReadEvent.block d ∧ d ≠ []) →
    10 ∉ remaining s →
    s.max_line < (remaining s).length →
    pending s < fuel →
    ∃ s' n, nextGo fuel s = (s', some (.error (.tooLong n))) ∧
      s'.finished = true ∧ s.max_line < n := by
  intro fuel
  induction fuel with
  | zero => intro s _ _ _ _ hp; omega
  | succ fuel ih =>
    intro s hfin hsrc hno hlong hp
    by_cases hmax : s.max_line < s.accum.length
    · exact ⟨_, _, nextGo_tooLong hfin hmax, rfl, hmax⟩
    rcases hb : s.buffer with - | ⟨x, xs⟩
    · rcases hs : s.source with - | ⟨ev, evs⟩
      · -- EOF: contradiction, everything remaining is the accumulator
        exfalso
        have : remaining s = s.accum := by simp [remaining, hb, hs, eventsBytes]
        rw [this] at hlong
        omega
      · obtain ⟨d, hd, hdne⟩ := hsrc ev (by rw [hs]; exact List.mem_cons_self _ _)
        subst hd
        have hfb : fillBuf s = ({ s with source := evs, buffer := d }, .ok d) := by
          rw [fillBuf, hb, hs]
        have hnd : 10 ∉ d := by
          intro hmem
          exact hno (by simp [remaining, hb, hs, eventsBytes, hmem])
        have hgrow : nextGo (fuel + 1) s = nextGo fuel _ :=
          nextGo_grow hfin hmax hfb hdne (memrchr_of_not_mem hnd)
        set s3 : LineChunks := { source := evs, buffer := [], capacity := s.capacity, finished := s.finished, accum := s.accum ++ d, max_line := s.max_line, min_chunk := s.min_chunk } with hs3
        have hrem : remaining s3 = remaining s := by
          simp [remaining, hb, hs, eventsBytes, hs3]
        have hpend : pending s3 < pending s := by
          simp only [pending, hs3, hb, hs, sourceWeight, List.map_cons, List.sum_cons,
            eventWeight, List.length_nil]
          omega
        obtain ⟨s', n, heq, hf, hn⟩ := ih s3 hfin
          (fun e he => hsrc e (by rw [hs]; exact List.mem_cons_of_mem _ he))
          (by rw [hrem]; exact hno) (by rw [hrem]; exact hlong) (by omega)
        exact ⟨s', n, by rw [hgrow]; exact heq, hf, hn⟩
    · have hbne : s.buffer ≠ [] := by rw [hb]; simp
      have hfb : fillBuf s = (s, .ok s.buffer) := by rw [fillBuf, hb]
      have hnbuf : 10 ∉ s.buffer := by
        intro hmem
        exact hno (by simp [remaining, hmem])
      have hgrow : nextGo (fuel + 1) s = nextGo fuel _ :=
        nextGo_grow hfin hmax hfb hbne (memrchr_of_not_mem hnbuf)
      set s3 : LineChunks := { source := s.source, buffer := [], capacity := s.capacity, finished := s.finished, accum := s.accum ++ s.buffer, max_line := s.max_line, min_chunk := s.min_chunk } with hs3
      have hrem : remaining s3 = remaining s := by
        simp [remaining, hs3]
      have hpend : pending s3 < pending s := by
        simp only [pending, hs3, List.length_nil, hb, List.length_cons]
        omega
      obtain ⟨s', n, heq, hf, hn⟩ := ih s3 hfin hsrc
        (by rw [hrem]; exact hno) (by rw [hrem]; exact hlong) (by omega)
      exact ⟨s', n, by rw [hgrow]; exact heq, hf, hn⟩

/-- Whole-sequence version: exactly one error item, no chunk items. -/
theorem chunks_noTerm (s : LineChunks)
    (hfin : s.finished = false)
    (hsrc : ∀ e ∈ s.source, ∃ d, e = ReadEvent.block d ∧ d ≠ [])
    (hno : 10 ∉ remaining s)
    (hlong : s.max_line < (remaining s).length) :
    ∃ n, s.max_line < n ∧ chunks s = [.error (.tooLong n)] := by
  obtain ⟨s', n, heq, hf, hn⟩ :=
    nextGo_noTerm (pending s + 1) s hfin hsrc hno hlong (by omega)
  refine ⟨n, hn, ?_⟩
  rw [chunks, chunksGo]
  rw [show next s = (s', some (.error (.tooLong n))) from heq]
  show Except.error (ChunkError.tooLong n) :: chunksGo (pending s + 1) s' =
    [Except.error (ChunkError.tooLong n)]
  rw [chunksGo_finished hf]

end NoTermLemmas

section LosslessLemmas

theorem okBytes_nil : okBytes [] = [] := rfl

theorem okBytes_cons_ok (v : List Nat) (l : List (Except ChunkError (List Nat))) :
    okBytes (.ok v :: l) = v ++ okBytes l := by
  simp [okBytes]

theorem Inv_accum_le {s : LineChunks} (h : Inv s) : s.accum.length ≤ s.max_line := by
  obtain ⟨-, -, A, B, hAB, hBno, hAalt, hrun⟩ := h
  have hB := hrun B ⟨[], s.buffer ++ eventsBytes s.source, by simp⟩ hBno
  rw [hAB, List.length_append]
  rcases hAalt with rfl | ⟨-, hAlen⟩
  · simpa using hB.2
  · omega

theorem nextGo_inv_aux (fuel : Nat)
    (ih : ∀ t, Inv t → pending t < fuel → ∀ t' r, nextGo fuel t = (t', r) → InvStep t t' r)
    (s : LineChunks) (src1 : List ReadEvent) (chunk : List Nat)
    (hp : pending s < fuel + 1)
    (hfin : s.finished = false)
    (hmax : ¬ s.max_line < s.accum.length)
    (hfb : fillBuf s = ({ s with source := src1, buffer := chunk }, .ok chunk))
    (hchne : chunk ≠ [])
    (hsrc1 : ∀ e ∈ src1, ∃ d, e = ReadEvent.block d ∧ d ≠ [])
    (A B : List Nat) (hAB : s.accum = A ++ B) (hBno : 10 ∉ B)
    (hAalt : A = [] ∨ (A.getLast? = some 10 ∧ A.length < s.min_chunk))
    (hrun1 : RunsOK s.min_chunk s.max_line (B ++ chunk ++ eventsBytes src1))
    (hpend1 : chunk.length + sourceWeight src1 ≤ pending s)
    (hremeq : remaining s = s.accum ++ chunk ++ eventsBytes src1)
    (s' : LineChunks) (r : Option (Except ChunkError (List Nat)))
    (h : nextGo (fuel + 1) s = (s', r)) : InvStep s s' r := by
  have hchlen : 0 < chunk.length := List.length_pos.mpr hchne
  cases hmr : memrchr 10 chunk with
  | none =>
    rw [nextGo_grow hfin hmax hfb hchne hmr] at h
    have h3 : nextGo fuel { source := src1, buffer := ([] : List Nat), capacity := s.capacity, finished := s.finished, accum := s.accum ++ chunk, max_line := s.max_line, min_chunk := s.min_chunk } = (s', r) := h
    have hInv3 : Inv { source := src1, buffer := ([] : List Nat), capacity := s.capacity, finished := s.finished, accum := s.accum ++ chunk, max_line := s.max_line, min_chunk := s.min_chunk } := by
      refine ⟨hfin, hsrc1, A, B ++ chunk, ?_, ?_, hAalt, ?_⟩
      · show s.accum ++ chunk = A ++ (B ++ chunk)
        rw [hAB, List.append_assoc]
      · simp only [List.mem_append, not_or]
        exact ⟨hBno, memrchr_eq_none hmr⟩
      · show RunsOK s.min_chunk s.max_line ((B ++ chunk) ++ [] ++ eventsBytes src1)
        simpa using hrun1
    have hp3 : sourceWeight src1 < pending s := by omega
    have hres := ih _ hInv3 (by show List.length [] + sourceWeight src1 < fuel; simp; omega)
      s' r h3
    have hrem3 : remaining { source := src1, buffer := ([] : List Nat), capacity := s.capacity, finished := s.finished, accum := s.accum ++ chunk, max_line := s.max_line, min_chunk := s.min_chunk } = remaining s := by
      rw [hremeq]
      simp [remaining]
    rcases hres with ⟨hr, hrem⟩ | ⟨v, hr, hsplit, hmc', hml', hcont⟩
    · exact Or.inl ⟨hr, by rw [← hrem3]; exact hrem⟩
    · refine Or.inr ⟨v, hr, by rw [← hrem3]; exact hsplit, hmc', hml', ?_⟩
      rcases hcont with ⟨hi, hlt⟩ | hfi
      · refine Or.inl ⟨hi, ?_⟩
        have hps3 : pending { source := src1, buffer := ([] : List Nat), capacity := s.capacity, finished := s.finished, accum := s.accum ++ chunk, max_line := s.max_line, min_chunk := s.min_chunk } = sourceWeight src1 := by
          simp [pending]
        rw [hps3] at hlt
        omega
      · exact Or.inr hfi
  | some eol =>
    obtain ⟨p, q, hpq, hlen⟩ := memrchr_eq_some hmr
    have htake : chunk.take (eol + 1) = p ++ [10] := by
      rw [hpq, ← hlen]; exact (split_take_drop 10 p q).1
    have hdrop : chunk.drop (eol + 1) = q := by
      rw [hpq, ← hlen]; exact (split_take_drop 10 p q).2
    have hqlen : q.length < chunk.length := by
      rw [hpq]; simp; omega
    have hqseg : RunsOK s.min_chunk s.max_line (q ++ eventsBytes src1) := by
      refine runsOK_of_seg hrun1 ⟨B ++ p ++ [10], [], ?_⟩
      rw [hpq]
      simp
    by_cases hbig : s.min_chunk ≤ (s.accum ++ chunk.take (eol + 1)).length
    · rw [nextGo_emit hfin hmax hfb hchne hmr hbig, Prod.mk.injEq] at h
      obtain ⟨rfl, rfl⟩ := h
      refine Or.inr ⟨s.accum ++ chunk.take (eol + 1), rfl, ?_, rfl, rfl, Or.inl ⟨?_, ?_⟩⟩
      · rw [hremeq]
        simp only [remaining, htake, hdrop]
        rw [hpq]
        simp
      · refine ⟨hfin, hsrc1, [], [], by simp, by simp, Or.inl rfl, ?_⟩
        show RunsOK s.min_chunk s.max_line ([] ++ chunk.drop (eol + 1) ++ eventsBytes src1)
        rw [hdrop]
        simpa using hqseg
      · show (chunk.drop (eol + 1)).length + sourceWeight src1 < pending s
        rw [hdrop]
        omega
    · rw [nextGo_putback hfin hmax hfb hchne hmr hbig] at h
      have h3 : nextGo fuel { source := src1, buffer := chunk.drop (eol + 1), capacity := s.capacity, finished := s.finished, accum := s.accum ++ chunk.take (eol + 1), max_line := s.max_line, min_chunk := s.min_chunk } = (s', r) := h
      have hInv3 : Inv { source := src1, buffer := chunk.drop (eol + 1), capacity := s.capacity, finished := s.finished, accum := s.accum ++ chunk.take (eol + 1), max_line := s.max_line, min_chunk := s.min_chunk } := by
        refine ⟨hfin, hsrc1, s.accum ++ chunk.take (eol + 1), [], by simp, by simp,
          Or.inr ⟨?_, ?_⟩, ?_⟩
        · rw [htake, ← List.append_assoc]
          exact List.getLast?_concat _
        · show (s.accum ++ chunk.take (eol + 1)).length < s.min_chunk
          omega
        · show RunsOK s.min_chunk s.max_line ([] ++ chunk.drop (eol + 1) ++ eventsBytes src1)
          rw [hdrop]
          simpa using hqseg
      have hps3 : pending { source := src1, buffer := chunk.drop (eol + 1), capacity := s.capacity, finished := s.finished, accum := s.accum ++ chunk.take (eol + 1), max_line := s.max_line, min_chunk := s.min_chunk } = (chunk.drop (eol + 1)).length + sourceWeight src1 := by
        simp [pending]
      have hp3 : (chunk.drop (eol + 1)).length + sourceWeight src1 < pending s := by
        rw [hdrop]
        omega
      have hres := ih _ hInv3 (by rw [hps3]; omega) s' r h3
      have hrem3 : remaining { source := src1, buffer := chunk.drop (eol + 1), capacity := s.capacity, finished := s.finished, accum := s.accum ++ chunk.take (eol + 1), max_line := s.max_line, min_chunk := s.min_chunk } = remaining s := by
        rw [hremeq]
        simp only [remaining, htake, hdrop]
        rw [hpq]
        simp
      rcases hres with ⟨hr, hrem⟩ | ⟨v, hr, hsplit, hmc', hml', hcont⟩
      · exact Or.inl ⟨hr, by rw [← hrem3]; exact hrem⟩
      · refine Or.inr ⟨v, hr, by rw [← hrem3]; exact hsplit, hmc', hml', ?_⟩
        rcases hcont with ⟨hi, hlt⟩ | hfi
        · refine Or.inl ⟨hi, ?_⟩
          rw [hps3] at hlt
          omega
        · exact Or.inr hfi

/-- One `next` call under the invariant. -/
theorem nextGo_inv : ∀ (fuel : Nat) (s : LineChunks), Inv s → pending s < fuel →
    ∀ s' r, nextGo fuel s = (s', r) → InvStep s s' r := by
  intro fuel
  induction fuel with
  | zero => intro s _ hp; omega
  | succ fuel ih =>
    intro s hInv hp s' r h
    obtain ⟨hfin, hsrc, A, B, hAB, hBno, hAalt, hrun⟩ := hInv
    have hmax : ¬ s.max_line < s.accum.length := by
      have := Inv_accum_le ⟨hfin, hsrc, A, B, hAB, hBno, hAalt, hrun⟩
      omega
    rcases fillBuf_cases s with ⟨hbne, hfb0⟩ | ⟨hbnil, hsnil, hfb0⟩ |
      ⟨d, evs, hbnil, hsrc', hfb0⟩ | ⟨e, evs, hbnil, hsrc', hfb0⟩
    · -- already-buffered bytes
      have hfb : fillBuf s = ({ s with source := s.source, buffer := s.buffer }, .ok s.buffer) :=
        hfb0
      exact nextGo_inv_aux fuel ih s s.source s.buffer hp hfin hmax hfb hbne hsrc
        A B hAB hBno hAalt hrun (by rw [pending]) rfl s' r h
    · -- end of input
      rw [nextGo_eof hfin hmax hfb0, Prod.mk.injEq] at h
      obtain ⟨rfl, h2⟩ := h
      by_cases hae : s.accum.isEmpty
      · rw [if_pos hae] at h2
        have hacc : s.accum = [] := by simpa using hae
        exact Or.inl ⟨h2.symm, by simp [remaining, hbnil, hsnil, eventsBytes, hacc]⟩
      · rw [if_neg hae] at h2
        refine Or.inr ⟨s.accum, h2.symm, ?_, rfl, rfl, Or.inr ⟨rfl, ?_⟩⟩
        · simp [remaining, hbnil, hsnil, eventsBytes]
        · simp [remaining, hbnil, hsnil, eventsBytes]
    · -- fresh read from the source
      obtain ⟨d', hd', hdne⟩ := hsrc (ReadEvent.block d)
        (by rw [hsrc']; exact List.mem_cons_self _ _)
      have hdne : d ≠ [] := by
        injection hd' with h''
        rw [h'']; exact hdne
      have hsrc1 : ∀ e ∈ evs, ∃ d', e = ReadEvent.block d' ∧ d' ≠ [] :=
        fun e he => hsrc e (by rw [hsrc']; exact List.mem_cons_of_mem _ he)
      have hrun1 : RunsOK s.min_chunk s.max_line (B ++ d ++ eventsBytes evs) := by
        have heq : B ++ s.buffer ++ eventsBytes s.source = B ++ d ++ eventsBytes evs := by
          rw [hbnil, hsrc']
          simp [eventsBytes]
        rw [heq] at hrun
        exact hrun
      have hpend1 : d.length + sourceWeight evs ≤ pending s := by
        rw [pending, hbnil, hsrc']
        simp [sourceWeight, eventWeight]
      have hremeq : remaining s = s.accum ++ d ++ eventsBytes evs := by
        rw [remaining, hbnil, hsrc']
        simp [eventsBytes]
      exact nextGo_inv_aux fuel ih s evs d hp hfin hmax hfb0 hdne hsrc1
        A B hAB hBno hAalt hrun1 hpend1 hremeq s' r h
    · -- a failing source is excluded by the invariant
      obtain ⟨d', hd', -⟩ := hsrc (ReadEvent.fail e)
        (by rw [hsrc']; exact List.mem_cons_self _ _)
      simp at hd'

/-- Collected run under the invariant: only `Ok` items, concatenating to
exactly the remaining input. -/
theorem chunksGo_inv : ∀ (fuel : Nat) (s : LineChunks), Inv s → pending s + 2 ≤ fuel →
    (∀ item ∈ chunksGo fuel s, ∃ v, item = Except.ok v) ∧
    okBytes (chunksGo fuel s) = remaining s := by
  intro fuel
  induction fuel with
  | zero => intro s _ hp; omega
  | succ fuel ih =>
    intro s hInv hp
    rcases hn : next s with ⟨s', r⟩
    have hstep : InvStep s s' r :=
      nextGo_inv (pending s + 1) s hInv (by omega) s' r hn
    rcases hstep with ⟨hr, hrem⟩ | ⟨v, hr, hsplit, -, -, hcont⟩
    · subst hr
      rw [show chunksGo (fuel + 1) s = [] from by rw [chunksGo, hn]]
      exact ⟨by simp, by rw [okBytes_nil, hrem]⟩
    · subst hr
      have hcg : chunksGo (fuel + 1) s = Except.ok v :: chunksGo fuel s' := by
        rw [chunksGo, hn]
      rw [hcg]
      rcases hcont with ⟨hinv', hlt⟩ | ⟨hfin', hrem'⟩
      · obtain ⟨hall, hbytes⟩ := ih s' hinv' (by omega)
        refine ⟨?_, ?_⟩
        · intro item hitem
          rcases List.mem_cons.mp hitem with rfl | hitem
          · exact ⟨v, rfl⟩
          · exact hall item hitem
        · rw [okBytes_cons_ok, hbytes, hsplit]
      · rw [chunksGo_finished hfin' fuel]
        refine ⟨?_, ?_⟩
        · intro item hitem
          rcases List.mem_cons.mp hitem with rfl | hitem
          · exact ⟨v, rfl⟩
          · simp at hitem
        · rw [okBytes_cons_ok, okBytes_nil, hsplit, hrem']

end LosslessLemmas


section SplitterLemmas

theorem specNonEmptyLines_nil : specNonEmptyLines [] = [] := rfl

theorem specNonEmptyLines_term (xs : List Nat) :
    specNonEmptyLines (10 :: xs) = specNonEmptyLines xs := by
  simp [specNonEmptyLines, specSegments]

theorem specNonEmptyLines_split {t : List Nat} (q : List Nat) (hne : t ≠ [])
    (hno : 10 ∉ t) : specNonEmptyLines (t ++ 10 :: q) = t :: specNonEmptyLines q := by
  rw [specNonEmptyLines, specSegments_append q hno, List.filter_cons,
    if_pos (by simpa using hne)]
  rfl

theorem specNonEmptyLines_no_term {t : List Nat} (hne : t ≠ []) (hno : 10 ∉ t) :
    specNonEmptyLines t = [t] := by
  rw [specNonEmptyLines, specSegments_no_term hno, List.filter_cons,
    if_pos (by simpa using hne)]
  rfl

/-- One `LineSplitParse::next` call: if no non-empty line is left the
call returns `None` with the cursor at the end; otherwise it returns the
parser applied to the first non-empty line and advances the cursor past
it. -/
theorem lspNext_spec {T : Type} (f : List Nat → T) :
    ∀ (fuel : Nat) (buf : List Nat) (lim : Nat), lim ≤ buf.length →
    buf.length - lim < fuel →
    (specNonEmptyLines (buf.drop lim) = [] ∧ lspNext f fuel buf lim = (buf.length, none)) ∨
    (∃ l ls lim', specNonEmptyLines (buf.drop lim) = l :: ls ∧
      lspNext f fuel buf lim = (lim', some (f l)) ∧
      lim < lim' ∧ lim' ≤ buf.length ∧ specNonEmptyLines (buf.drop lim') = ls) := by
  intro fuel
  induction fuel with
  | zero => intro buf lim h1 h2; omega
  | succ fuel ih =>
    intro buf lim hle hfuel
    have hlend : (buf.drop lim).length = buf.length - lim := List.length_drop _ _
    rcases hdrop : buf.drop lim with - | ⟨b, xs⟩
    · have hlim : lim = buf.length := by
        rw [hdrop] at hlend
        simp at hlend
        omega
      left
      exact ⟨rfl, by rw [lspNext, if_pos hlim, hlim]⟩
    · have hlim : lim ≠ buf.length := by
        intro hcon
        rw [hcon, List.drop_length] at hdrop
        simp at hdrop
      have hlt : lim < buf.length := by omega
      by_cases hb : b = 10
      · subst hb
        have hm : memchr 10 (buf.drop lim) = some 0 := by
          rw [hdrop, memchr]
          simp
        have hstep : lspNext f (fuel + 1) buf lim = lspNext f fuel buf (lim + 1) := by
          rw [lspNext, if_neg hlim]
          simp [hm]
        have hle1 : lim + 1 ≤ buf.length := hlt
        have hdrop1 : buf.drop (lim + 1) = xs := by
          rw [← List.drop_drop, hdrop]
          rfl
        rcases ih buf (lim + 1) hle1 (by omega) with ⟨h1, h2⟩ |
          ⟨l, ls, lim', h1, h2, h3, h4, h5⟩
        · rw [hdrop1] at h1
          exact Or.inl ⟨by rw [specNonEmptyLines_term]; exact h1, by rw [hstep]; exact h2⟩
        · rw [hdrop1] at h1
          exact Or.inr ⟨l, ls, lim', by rw [specNonEmptyLines_term]; exact h1,
            by rw [hstep]; exact h2, by omega, h4, h5⟩
      · rcases hmx : memchr 10 xs with - | e
        · -- no terminator at all in the tail
          have hnoxs := memchr_eq_none hmx
          have hno : (10 : Nat) ∉ b :: xs := by
            intro hmem
            rcases List.mem_cons.mp hmem with h10 | h10
            · exact hb h10.symm
            · exact hnoxs h10
          have hm : memchr 10 (buf.drop lim) = none := by
            rw [hdrop, memchr, if_neg hb, hmx]
            rfl
          have hlen2 : buf.length - lim = xs.length + 1 := by
            rw [hdrop] at hlend
            simp at hlend
            omega
          have hres : lspNext f (fuel + 1) buf lim = (buf.length, some (f (b :: xs))) := by
            rw [lspNext, if_neg hlim]
            simp only [hm]
            rw [hdrop, hlen2, List.take_succ_cons, List.take_length]
            simp
          right
          refine ⟨b :: xs, [], buf.length, ?_, hres, hlt, le_rfl, ?_⟩
          · rw [specNonEmptyLines_no_term (by simp) hno]
          · rw [List.drop_length]
            rfl
        · obtain ⟨p', q', hxs, hplen, hpno⟩ := memchr_eq_some hmx
          have hm : memchr 10 (buf.drop lim) = some (e + 1) := by
            rw [hdrop, memchr, if_neg hb, hmx]
            rfl
          have htail : (b :: xs : List Nat) = (b :: p') ++ 10 :: q' := by
            rw [hxs]
            rfl
          have hbplen : (b :: p').length = e + 1 := by
            simp [hplen]
          have hslice : (buf.drop lim).take (e + 1) = b :: p' := by
            rw [hdrop, htail, ← hbplen]
            exact List.take_left _ _
          have hlen2 : buf.length - lim = e + 2 + q'.length := by
            rw [hdrop, htail] at hlend
            simp at hlend
            omega
          have hlim2 : lim + e + 2 ≤ buf.length := by omega
          have hres : lspNext f (fuel + 1) buf lim =
              (lim + e + 2, some (f (b :: p'))) := by
            rw [lspNext, if_neg hlim]
            simp only [hm, Nat.add_sub_cancel_left]
            rw [hslice]
            simp [Nat.add_assoc]
          have hdropA : buf.drop (lim + e + 2) = q' := by
            rw [show lim + e + 2 = lim + (e + 2) from by omega, ← List.drop_drop, hdrop,
              htail, show e + 2 = (b :: p').length + 1 from by omega]
            exact (split_take_drop 10 (b :: p') q').2
          have hno' : (10 : Nat) ∉ b :: p' := by
            intro hmem
            rcases List.mem_cons.mp hmem with h10 | h10
            · exact hb h10.symm
            · exact hpno h10
          have hspecl : specNonEmptyLines (b :: xs) =
              (b :: p') :: specNonEmptyLines q' := by
            rw [htail, specNonEmptyLines_split q' (by simp) hno']
          exact Or.inr ⟨b :: p', specNonEmptyLines q', lim + e + 2, hspecl, hres,
            by omega, hlim2, by rw [hdropA]⟩


/-- Collected output of `LineSplitParse` from any cursor. -/
theorem lspItems_spec {T : Type} (f : List Nat → T) :
    ∀ (fuel : Nat) (buf : List Nat) (lim : Nat), lim ≤ buf.length →
    buf.length - lim < fuel →
    lspItems f fuel buf lim = (specNonEmptyLines (buf.drop lim)).map f := by
  intro fuel
  induction fuel with
  | zero => intro buf lim h1 h2; omega
  | succ fuel ih =>
    intro buf lim hle hfuel
    rcases lspNext_spec f (buf.length + 1) buf lim hle (by omega) with ⟨h1, h2⟩ |
      ⟨l, ls, lim', h1, h2, h3, h4, h5⟩
    · have hl : lspItems f (fuel + 1) buf lim = [] := by
        rw [lspItems, h2]
      rw [hl, h1]
      rfl
    · have hl : lspItems f (fuel + 1) buf lim = f l :: lspItems f fuel buf lim' := by
        rw [lspItems, h2]
      rw [hl, h1, List.map_cons]
      congr 1
      rw [ih buf lim' h4 (by omega), h5]

end SplitterLemmas

section ClaimSupport

theorem HCap_ofInput (c minc maxl : Nat) (input : List Nat) :
    HCap (ofInput c minc maxl input) := by
  refine ⟨?_, by simp [ofInput]⟩
  intro d hd
  simp only [ofInput, List.mem_map] at hd
  obtain ⟨d', hd', heq⟩ := hd
  injection heq with heq
  subst heq
  exact chunksOfGo_len_le input.length input d' hd'

theorem Inv_ofInput {c minc maxl : Nat} {input : List Nat} (hc : 0 < c)
    (hruns : ∀ r ∈ lineRuns input, r + minc ≤ maxl + 1 ∧ r ≤ maxl) :
    Inv (ofInput c minc maxl input) ∧ remaining (ofInput c minc maxl input) = input := by
  have hflat : eventsBytes ((chunksOf c input).map ReadEvent.block) = input := by
    rw [eventsBytes_map_block, chunksOf_flatten hc]
  constructor
  · refine ⟨rfl, ?_, [], [], rfl, by simp, Or.inl rfl, ?_⟩
    · intro e he
      simp only [ofInput, List.mem_map] at he
      obtain ⟨d', hd', heq⟩ := he
      exact ⟨d', heq.symm, chunksOfGo_ne_nil hc input.length input d' hd'⟩
    · show RunsOK minc maxl ([] ++ [] ++ eventsBytes ((chunksOf c input).map ReadEvent.block))
      rw [List.nil_append, List.nil_append, hflat]
      exact runsOK_of_lineRuns hruns
  · show [] ++ [] ++ eventsBytes ((chunksOf c input).map ReadEvent.block) = input
    rw [List.nil_append, List.nil_append, hflat]

end ClaimSupport

section ClaimTheorems

/-- C1 (amended): if every maximal terminator-free run of the input is at
most `max_line` and short enough that a pending put-back chunk (of length
`< min_chunk`) plus the run still fits in `max_line` (that is,
`run + min_chunk ≤ max_line + 1`), then the iterator yields only `Ok`
chunks and their concatenation in order is exactly the input. -/
theorem c1_amended (c minc maxl : Nat) (input : List Nat) (hc : 0 < c)
    (hruns : ∀ r ∈ lineRuns input, r + minc ≤ maxl + 1 ∧ r ≤ maxl) :
    (∀ item ∈ chunks (ofInput c minc maxl input), ∃ v, item = Except.ok v) ∧
    okBytes (chunks (ofInput c minc maxl input)) = input := by
  obtain ⟨hinv, hrem⟩ := Inv_ofInput hc hruns
  have hmain := chunksGo_inv (pending (ofInput c minc maxl input) + 2)
    (ofInput c minc maxl input) hinv le_rfl
  rw [hrem] at hmain
  exact hmain

/-- C2: every yielded chunk is non-empty, and every yielded chunk that is
not the final item ends with the terminator byte `10`. -/
theorem c2 (s : LineChunks) (i : Nat) (v : List Nat)
    (h : (chunks s)[i]? = some (Except.ok v)) :
    v ≠ [] ∧ (i = (chunks s).length - 1 ∨ v.getLast? = some 10) := by
  obtain ⟨h1, h2⟩ := chunksGo_items (pending s + 2) s i v h
  exact ⟨h1, h2.imp id And.left⟩

/-- C3: every yielded chunk that is not the final item has length at
least `min_chunk`; only the terminal chunk may be shorter. -/
theorem c3 (s : LineChunks) (i : Nat) (v : List Nat)
    (h : (chunks s)[i]? = some (Except.ok v)) :
    i = (chunks s).length - 1 ∨ s.min_chunk ≤ v.length := by
  obtain ⟨-, h2⟩ := chunksGo_items (pending s + 2) s i v h
  exact h2.imp id And.right

/-- C4: after any error item the iterator is finished: the very next call
returns `None` with the state untouched (so no further source reads), the
item sequence from the post-error state is empty, and the whole item
sequence holds at most one error. -/
theorem c4 (s s' : LineChunks) (e : ChunkError)
    (h : next s = (s', some (.error e))) :
    s'.finished = true ∧ next s' = (s', none) ∧ chunks s' = [] ∧
    (chunks s).countP isErrItem ≤ 1 := by
  have hsh := nextGo_shape (pending s + 1) s s' (some (.error e)) h
  have hfin := hsh.2.2.2.1 e rfl
  exact ⟨hfin, next_finished hfin, chunksGo_finished hfin _, chunksGo_errCount _ s⟩

/-- C5: an input with no terminator anywhere and longer than `max_line`
yields exactly one line-too-long error (whose reported length exceeds
`max_line`; the error value carries no input bytes) and zero chunks. -/
theorem c5 (c minc maxl : Nat) (input : List Nat) (hc : 0 < c)
    (hno : 10 ∉ input) (hlong : maxl < input.length) :
    ∃ n, maxl < n ∧
      chunks (ofInput c minc maxl input) = [.error (.tooLong n)] := by
  have hflat : eventsBytes ((chunksOf c input).map ReadEvent.block) = input := by
    rw [eventsBytes_map_block, chunksOf_flatten hc]
  have hremeq : remaining (ofInput c minc maxl input) = input := by
    show [] ++ [] ++ eventsBytes ((chunksOf c input).map ReadEvent.block) = input
    rw [List.nil_append, List.nil_append, hflat]
  refine chunks_noTerm (ofInput c minc maxl input) rfl ?_ ?_ ?_
  · intro e he
    simp only [ofInput, List.mem_map] at he
    obtain ⟨d', hd', heq⟩ := he
    exact ⟨d', heq.symm, chunksOfGo_ne_nil hc input.length input d' hd'⟩
  · rw [hremeq]; exact hno
  · rw [hremeq]; exact hlong

/-- C7 (amended): every yielded chunk has length at most
`max_line + chunksize` (not `max_line` alone: the emitted chunk is the
accumulator, which passed the `≤ max_line` check, plus at most one more
buffer fill). -/
theorem c7_amended (c minc maxl : Nat) (input : List Nat) (v : List Nat)
    (hv : Except.ok v ∈ chunks (ofInput c minc maxl input)) :
    v.length ≤ maxl + c :=
  chunksGo_cap (pending (ofInput c minc maxl input) + 2) (ofInput c minc maxl input)
    (HCap_ofInput c minc maxl input) (by simp [ofInput]) v hv

/-- C8: for the empty input the very first `next` returns `None` and the
iterator yields zero items, for any configuration. -/
theorem c8 (c minc maxl : Nat) :
    (next (ofInput c minc maxl [])).2 = none ∧ chunks (ofInput c minc maxl []) = [] := by
  have hfb : fillBuf (ofInput c minc maxl []) = (ofInput c minc maxl [], .ok []) := rfl
  have h1 : next (ofInput c minc maxl []) =
      ({ ofInput c minc maxl [] with finished := true, accum := [] }, none) := by
    show nextGo (pending (ofInput c minc maxl []) + 1) (ofInput c minc maxl []) = _
    rw [show pending (ofInput c minc maxl []) = 0 from rfl]
    rw [nextGo_eof rfl (Nat.not_lt_zero maxl) hfb]
    rfl
  refine ⟨by rw [h1], ?_⟩
  rw [chunks, chunksGo, h1]

/-- C9 (amended): the defaults of `LineChunks::new(c, _)` are
`max_line = 32 × c` exactly, and `min_chunk = ⌊0.75 × c⌋` (floor
division: `4 · min_chunk ≤ 3c < 4 · min_chunk + 4`), which equals
`0.75 × c` exactly only when `3c` is divisible by `4`. -/
theorem c9_amended (c : Nat) (input : List Nat) :
    (LineChunks.new c input).max_line = 32 * c ∧
    4 * (LineChunks.new c input).min_chunk ≤ 3 * c ∧
    3 * c < 4 * (LineChunks.new c input).min_chunk + 4 := by
  have h1 : (LineChunks.new c input).min_chunk = c * 3 / 4 := rfl
  have h2 : (LineChunks.new c input).max_line = c * 32 := rfl
  refine ⟨by rw [h2]; ring, by rw [h1]; omega, by rw [h1]; omega⟩

/-- C10: one call of `next` preserves the memory invariant: if every
source read fits the buffer capacity and the accumulator holds at most
`max_line + capacity` bytes, the same holds afterwards. -/
theorem c10 (s s' : LineChunks) (r : Option (Except ChunkError (List Nat)))
    (hcap : HCap s) (ha : s.accum.length ≤ s.max_line + s.capacity)
    (h : next s = (s', r)) :
    s'.accum.length ≤ s'.max_line + s'.capacity ∧ HCap s' := by
  obtain ⟨hc', ha', -⟩ := nextGo_cap (pending s + 1) s s' r hcap ha h
  obtain ⟨-, hml, hcp, -, -⟩ := nextGo_shape (pending s + 1) s s' r h
  exact ⟨by rw [hml, hcp]; exact ha', hc'⟩


/-- C6: the `LineSplitParse` iterator yields exactly the transform applied
to each non-empty line of the chunk in order, terminator stripped, blank
segments and the empty tail after a final terminator skipped; in
particular splitting `"a\nb\n\nc"` yields results for exactly `"a"`,
`"b"`, `"c"`, and splitting `"a\nb"` yields results for `"a"` then `"b"`. -/
theorem c6 :
    (∀ (T : Type) (f : List Nat → T) (buf : List Nat),
      lineSplitParse f buf = (specNonEmptyLines buf).map f) ∧
    lineSplitParse (fun l => l) [97, 10, 98, 10, 10, 99] = [[97], [98], [99]] ∧
    lineSplitParse (fun l => l) [97, 10, 98] = [[97], [98]] := by
  refine ⟨?_, by decide, by decide⟩
  intro T f buf
  have hmain := lspItems_spec f (buf.length + 1) buf 0 (by omega) (by omega)
  rw [lineSplitParse, hmain, List.drop_zero]

end ClaimTheorems

section Counterexamples

/-- C1 counterexample: every maximal terminator-free run of `c1Input` is
within the configured `max_line` of `LineChunks::new(4, _)`, yet the
iterator yields an error item, so it does not yield only `Ok` chunks. -/
theorem c1_counterexample :
    (∀ r ∈ lineRuns c1Input, r ≤ (LineChunks.new 4 c1Input).max_line) ∧
    (chunks (LineChunks.new 4 c1Input)).countP isErrItem = 1 := by decide

/-- C7 counterexample: with chunk size 4 (so `max_line = 128`) the input
`c7Input` is emitted as a single `Ok` chunk of 132 bytes, exceeding the
configured maximum line size. -/
theorem c7_counterexample :
    (LineChunks.new 4 c7Input).max_line = 128 ∧
    chunkLens (chunks (LineChunks.new 4 c7Input)) = [132] := by decide

/-- C9 counterexample: for chunk size 6, exact arithmetic would demand
`min_chunk × 4 = 0.75 × 6 × 4 = 18`, but the default is `6 * 3 / 4 = 4`
(floor division), so `min_chunk × 4 = 16 ≠ 18`. -/
theorem c9_counterexample : ¬ (4 * (LineChunks.new 6 []).min_chunk = 3 * 6) := by decide

end Counterexamples

section Witnesses

theorem c1_amended_witness :
    (0 < 4 ∧ (∀ r ∈ lineRuns [97, 98, 10], r + 3 ≤ 128 + 1 ∧ r ≤ 128)) ∧
    ((∀ item ∈ chunks (ofInput 4 3 128 [97, 98, 10]), ∃ v, item = Except.ok v) ∧
      okBytes (chunks (ofInput 4 3 128 [97, 98, 10])) = [97, 98, 10]) :=
  ⟨⟨by decide, by decide⟩, c1_amended 4 3 128 [97, 98, 10] (by decide) (by decide)⟩

theorem c2_witness :
    (chunks (LineChunks.new 4 [97, 98, 10]))[0]? = some (Except.ok [97, 98, 10]) ∧
    (([97, 98, 10] : List Nat) ≠ [] ∧
      (0 = (chunks (LineChunks.new 4 [97, 98, 10])).length - 1 ∨
        ([97, 98, 10] : List Nat).getLast? = some 10)) :=
  ⟨by decide, c2 (LineChunks.new 4 [97, 98, 10]) 0 [97, 98, 10] (by decide)⟩

theorem c3_witness :
    (chunks (LineChunks.new 4 [97, 98, 10]))[0]? = some (Except.ok [97, 98, 10]) ∧
    (0 = (chunks (LineChunks.new 4 [97, 98, 10])).length - 1 ∨
      (LineChunks.new 4 [97, 98, 10]).min_chunk ≤ ([97, 98, 10] : List Nat).length) :=
  ⟨by decide, c3 (LineChunks.new 4 [97, 98, 10]) 0 [97, 98, 10] (by decide)⟩

theorem c4_witness :
    next errSrcState = (errSrcStateAfter, some (.error (.readErr 7))) ∧
    (errSrcStateAfter.finished = true ∧
      next errSrcStateAfter = (errSrcStateAfter, none) ∧
      chunks errSrcStateAfter = [] ∧
      (chunks errSrcState).countP isErrItem ≤ 1) :=
  ⟨by decide, c4 errSrcState errSrcStateAfter (.readErr 7) (by decide)⟩

theorem c5_witness :
    (0 < 2 ∧ (10 : Nat) ∉ [120, 120, 120, 120] ∧ 3 < 4) ∧
    (∃ n, 3 < n ∧
      chunks (ofInput 2 1 3 [120, 120, 120, 120]) = [.error (.tooLong n)]) :=
  ⟨⟨by decide, by decide, by decide⟩,
    c5 2 1 3 [120, 120, 120, 120] (by decide) (by decide) (by decide)⟩

theorem c7_amended_witness :
    Except.ok [97, 98, 10] ∈ chunks (ofInput 4 3 128 [97, 98, 10]) ∧
    ([97, 98, 10] : List Nat).length ≤ 128 + 4 :=
  ⟨by decide, c7_amended 4 3 128 [97, 98, 10] [97, 98, 10] (by decide)⟩

theorem c10_witness :
    (HCap (ofInput 4 3 128 [97, 98, 10]) ∧
      (ofInput 4 3 128 [97, 98, 10]).accum.length ≤
        (ofInput 4 3 128 [97, 98, 10]).max_line + (ofInput 4 3 128 [97, 98, 10]).capacity ∧
      next (ofInput 4 3 128 [97, 98, 10]) = (c10After, some (.ok [97, 98, 10]))) ∧
    (c10After.accum.length ≤ c10After.max_line + c10After.capacity ∧ HCap c10After) :=
  ⟨⟨HCap_ofInput 4 3 128 [97, 98, 10], by decide, by decide⟩,
    c10 (ofInput 4 3 128 [97, 98, 10]) c10After (some (.ok [97, 98, 10]))
      (HCap_ofInput 4 3 128 [97, 98, 10]) (by decide) (by decide)⟩

end Witnesses





end Linechunks
